import Mathlib

/-!
Verification of the pivolmoney host/device session-synchronization protocol.

The development shallowly embeds the relevant source code:
* `src/pico/new_code/communication/communication.py` — `CommunicationManager.handle_message`
  (device-side protocol handler), modelled by `commHandle` over `CommState`.
* `src/pc/volume_monitor.py` — the host's diff computation in `VolumeMonitor.update`
  (`computeChanges`) and the first message written by `VolumeMonitor.try_connect`
  (`tryConnectFirstSend`).
* `src/pico/app_volume_serial.py` — `AppVolumeController.read_line` / `handle_message`
  (the marker-framed byte codec), modelled by `readLineStep` / `serialHandle`.

Modelling conventions:
* Byte strings are `List Nat` (byte values); text decoding is the identity on bytes and
  Python `str.strip()` is `stripWS`.  JSON parsing of a line is an explicit oracle
  parameter `jp : Bytes → Option Msg` (`none` = `json.loads` raises), so the framing
  logic is independent of any concrete JSON grammar.
* Python dicts holding one audio session are the record `AppEntry`; a key that may be
  absent from the dict is an `Option` field (`none` = key absent).  Python truthiness of
  a string field is "present and nonempty".
* The session table (`self.apps`, a dict keyed by app name) is an association list
  `Table` with first-match lookup; `insertT` is dict assignment (replace in place or
  append) and `eraseT` is `del`.
* The `data` field of an `icon_data_b64` message is modelled by its base64-decoded
  payload (`Option Bytes`, `none` = field absent or the empty string); the code only
  inspects the decoded length.
* Logging, the UI manager (whose `apps` dict aliases the manager's own), `time.sleep`
  and the CDC hardware layer are effect-free here and are omitted.
-/

/-- Byte strings (e.g. icon payloads, serial buffers) as lists of byte values. -/
abbrev Bytes := List Nat

/-- One audio-session dict as exchanged in the protocol: keys `name`, `volume`,
`muted`, `has_icon`, `icon`.  A `none` field models an absent dict key. -/
structure AppEntry where
  name : Option String
  volume : Option Int
  muted : Option Bool
  has_icon : Option Bool
  icon : Option Bytes
deriving DecidableEq

/-- The session table `self.apps`: a Python dict from app name to session dict,
modelled as an association list with first-match lookup. -/
abbrev Table := List (String × AppEntry)

/-- Dict lookup `d[k]` / `d.get(k)`. -/
def lookupT : Table → String → Option AppEntry
  | [], _ => none
  | (k, v) :: t, n => if k = n then some v else lookupT t n

/-- Dict assignment `d[k] = v`: replace the existing entry in place, else append. -/
def insertT : Table → String → AppEntry → Table
  | [], n, v => [(n, v)]
  | (k, w) :: t, n, v => if k = n then (n, v) :: t else (k, w) :: insertT t n v

/-- Dict deletion `del d[k]` (removes the single entry holding key `k`). -/
def eraseT : Table → String → Table
  | [], _ => []
  | (k, v) :: t, n => if k = n then t else (k, v) :: eraseT t n

/-- The keys of the table, in order. -/
def keysOf (t : Table) : List String := t.map Prod.fst

/-- Python-dict well-formedness: keys are pairwise distinct. -/
def nodupKeys (t : Table) : Prop := (keysOf t).Nodup

/-- `old.update(u)` on session dicts: every key present in `u` overwrites the
corresponding key of `old`; absent keys of `u` leave `old` untouched. -/
def dictUpdate (old u : AppEntry) : AppEntry :=
  { name := u.name <|> old.name
    volume := u.volume <|> old.volume
    muted := u.muted <|> old.muted
    has_icon := u.has_icon <|> old.has_icon
    icon := u.icon <|> old.icon }

/-- `communication.py` lines 238-247: merge an `updated` entry onto the stored one,
restoring the stored icon afterwards when one was present. -/
def updateEntry (old u : AppEntry) : AppEntry :=
  let merged := dictUpdate old u
  match old.icon with
  | some i => { merged with icon := some i }
  | none => merged

/-- The inbound message union (the `type`-tagged JSON objects of the catalog).
`connected` only exists in the `app_volume_serial.py` iteration; `other` stands for
any unrecognized `type` string (all handlers fall through silently). -/
inductive Msg where
  | test
  | connected
  | initial_config (entries : List AppEntry)
  | volume_update (app : Option String) (volume : Option Int)
  | mute_update (app : Option String) (muted : Option Bool)
  | app_changes (added : List AppEntry) (removed : List String) (updated : List AppEntry)
  | icon_data_b64 (app : Option String) (data : Option Bytes)
  | icon_data (app : Option String)
  | init_complete
  | other (t : String)
deriving DecidableEq

/-- Messages the device-side handlers construct and write to the host. -/
inductive Sent where
  | test_response (status : String)
  | request_initial_config
  | config_received (status : String) (unique_apps : Nat)
  | icon_parsed (app : String) (status : String)
  | ready_for_icon (app : String)
  | ready
deriving DecidableEq

/-- The mutable fields of `CommunicationManager` that `handle_message` touches.
`protocol_complete` is the source's `protocol_initialized` flag; `ui_full` records
the `UIManager.set_state(UIState.FULL_UI)` call. -/
structure CommState where
  connected : Bool
  protocol_complete : Bool
  apps : Table
  expected_icons : Nat
  received_icons : Nat
  processing_icon : Bool
  current_icon_app : Option String
  ui_full : Bool
deriving DecidableEq

/-- `communication.py` lines 152-171: rebuild the table from an `initial_config`
payload, skipping entries whose `name` is absent or empty and names already seen,
while counting kept entries whose `has_icon` is (truthily) set.  Returns the new
table (in first-occurrence order) and the `expected_icons` count. -/
def buildConfig (seen : List String) : List AppEntry → Table × Nat
  | [] => ([], 0)
  | a :: rest =>
    match a.name with
    | some n =>
      if n ≠ "" ∧ n ∉ seen then
        let r := buildConfig (n :: seen) rest
        ((n, a) :: r.1, (if a.has_icon = some true then 1 else 0) + r.2)
      else buildConfig seen rest
    | none => buildConfig seen rest

/-- `communication.py` lines 227-230 (also `app_volume_serial.py` lines 251-254):
upsert each `added` entry under its (truthy) name. -/
def applyAdded (t : Table) (l : List AppEntry) : Table :=
  l.foldl (fun t a =>
    match a.name with
    | some n => if n ≠ "" then insertT t n a else t
    | none => t) t

/-- `communication.py` lines 233-235 (also `app_volume_serial.py` lines 258-261):
delete each `removed` name that is present. -/
def applyRemoved (t : Table) (l : List String) : Table :=
  l.foldl (fun t n => if (lookupT t n).isSome then eraseT t n else t) t

/-- `communication.py` lines 238-247: merge each `updated` entry onto an existing
one (membership test `app_name in self.apps`, no truthiness check), preserving a
stored icon. -/
def applyUpdated (t : Table) (l : List AppEntry) : Table :=
  l.foldl (fun t a =>
    match a.name with
    | some n =>
      match lookupT t n with
      | some old => insertT t n (updateEntry old a)
      | none => t
    | none => t) t

/-- `CommunicationManager.handle_message` (`communication.py` lines 123-366):
one dispatch of an inbound message, returning the new state and the messages
written via `send_message` (whose writes are modelled as always succeeding). -/
def commHandle (s : CommState) (m : Msg) : CommState × List Sent :=
  match m with
  | .test =>
    -- lines 129-148: reply, then request the initial config and mark connected
    ({ s with connected := true }, [.test_response "ok", .request_initial_config])
  | .initial_config entries =>
    -- lines 150-180: rebuild the table, reset the icon counter, acknowledge
    let r := buildConfig [] entries
    ({ s with apps := r.1, expected_icons := r.2, received_icons := 0 },
      [.config_received "ok" r.1.length])
  | .volume_update app vol =>
    -- lines 185-201: set the volume of a known app (icon saved and restored)
    (match app, vol with
     | some a, some v =>
       if a ≠ "" then
         match lookupT s.apps a with
         | some e =>
           let e' := if e.icon.isSome
             then { e with volume := some v, icon := e.icon }
             else { e with volume := some v }
           ({ s with apps := insertT s.apps a e' }, [])
         | none => (s, [])
       else (s, [])
     | _, _ => (s, []))
  | .mute_update app mt =>
    -- lines 203-219: set the mute flag of a known app (icon saved and restored)
    (match app, mt with
     | some a, some v =>
       if a ≠ "" then
         match lookupT s.apps a with
         | some e =>
           let e' := if e.icon.isSome
             then { e with muted := some v, icon := e.icon }
             else { e with muted := some v }
           ({ s with apps := insertT s.apps a e' }, [])
         | none => (s, [])
       else (s, [])
     | _, _ => (s, []))
  | .app_changes added removed updated =>
    -- lines 221-247: added upserts, removed deletes, updated merges
    ({ s with apps := applyUpdated (applyRemoved (applyAdded s.apps added) removed) updated },
      [])
  | .icon_data_b64 app data =>
    -- lines 265-314: decode, validate the 4608-byte size, store, acknowledge;
    -- a wrong size raises and is answered with an error ack; otherwise silent
    (match app, data with
     | some a, some d =>
       match lookupT s.apps a with
       | some e =>
         if a ≠ "" ∧ s.processing_icon = false then
           if d.length = 4608 then
             ({ s with apps := insertT s.apps a { e with icon := some d },
                       received_icons := s.received_icons + 1 },
               [.icon_parsed a "ok"])
           else (s, [.icon_parsed a "error"])
         else (s, [])
       | none => (s, [])
     | _, _ => (s, []))
  | .icon_data app =>
    -- lines 316-336: announce readiness for a known app when no icon is processing
    (match app with
     | some a =>
       if a ≠ "" ∧ (lookupT s.apps a).isSome ∧ s.processing_icon = false then
         ({ s with current_icon_app := some a }, [.ready_for_icon a])
       else (s, [])
     | none => (s, []))
  | .init_complete =>
    -- lines 338-361: emit `ready` (and switch to the full UI) only when every
    -- expected icon arrived; otherwise only a warning is logged
    if s.received_icons = s.expected_icons then
      ({ s with ui_full := true, protocol_complete := true }, [.ready])
    else (s, [])
  | .connected => (s, [])
  | .other _ => (s, [])

/-- `VolumeMonitor.try_connect` (`volume_monitor.py` line 67): the first message the
host writes after opening the port is the liveness probe. -/
def tryConnectFirstSend : Msg := Msg.test

/-- The host's incremental diff (`volume_monitor.py` lines 368-385). -/
structure Changes where
  added : List AppEntry
  removed : List String
  updated : List AppEntry
deriving DecidableEq

/-- `volume_monitor.py` lines 374-385: one polling pass over the current snapshot
against the previous one.  An app is `added` when its name is new, `updated` when
present in both snapshots with a differing volume or mute flag, and `removed` when
its name disappeared. -/
def computeChanges (last cur : Table) : Changes :=
  { added := cur.filterMap (fun p =>
      match lookupT last p.1 with
      | none => some p.2
      | some _ => none)
    updated := cur.filterMap (fun p =>
      match lookupT last p.1 with
      | none => none
      | some b =>
        if p.2.volume ≠ b.volume ∨ p.2.muted ≠ b.muted then some p.2 else none)
    removed := (last.filter (fun q => lookupT cur q.1 = none)).map Prod.fst }

/-! ## The marker-framed byte codec of `app_volume_serial.py` -/

/-- `b'<ICON_START>'` (`app_volume_serial.py` line 67). -/
def iconStartMarker : Bytes := [60, 73, 67, 79, 78, 95, 83, 84, 65, 82, 84, 62]

/-- `b'<ICON_END>'` (`app_volume_serial.py` line 68). -/
def iconEndMarker : Bytes := [60, 73, 67, 79, 78, 95, 69, 78, 68, 62]

/-- Python whitespace for `str.strip()`. -/
def isWS (b : Nat) : Bool := b == 32 || b == 9 || b == 10 || b == 13 || b == 11 || b == 12

/-- `str.strip()`: drop leading and trailing whitespace bytes. -/
def stripWS (l : Bytes) : Bytes := ((l.dropWhile isWS).reverse.dropWhile isWS).reverse

/-- `buffer.find(pat)`: index of the first occurrence of `pat`, if any. -/
def findSub (buf pat : Bytes) : Option Nat :=
  (List.range (buf.length + 1)).find? (fun i => pat.isPrefixOf (buf.drop i))

/-- Split a buffer at its first newline byte: `some (before, after)` or `none`. -/
def splitAtNl : Bytes → Option (Bytes × Bytes)
  | [] => none
  | b :: rest =>
    if b = 10 then some ([], rest)
    else
      match splitAtNl rest with
      | some (pre, post) => some (b :: pre, post)
      | none => none

/-- `bytes.replace(pat, b'')`: remove every (left-to-right, non-overlapping)
occurrence of `pat`.  Fuel-driven so that it is structural; called with
`fuel = l.length`, which suffices because each step consumes at least one byte
when `pat` is nonempty. -/
def rmAll (pat : Bytes) : Nat → Bytes → Bytes
  | _, [] => []
  | 0, l => l
  | fuel + 1, b :: rest =>
    if pat ≠ [] ∧ pat.isPrefixOf (b :: rest) then rmAll pat fuel ((b :: rest).drop pat.length)
    else b :: rmAll pat fuel rest

/-- The mutable fields of `AppVolumeController` (`app_volume_serial.py`). -/
structure SerialState where
  connected : Bool
  apps : Table
  input_buffer : Bytes
  receiving_icon : Bool
  current_icon_data : Bytes
  current_icon_app : Option String
deriving DecidableEq

/-- `app_volume_serial.py` lines 264-273: an `updated` entry replaces the stored
dict wholesale, first copying a stored icon into it when one exists. -/
def serialApplyUpdated (t : Table) (l : List AppEntry) : Table :=
  l.foldl (fun t a =>
    match a.name with
    | some n =>
      if n ≠ "" then
        match lookupT t n with
        | some old =>
          insertT t n (if old.icon.isSome then { a with icon := old.icon } else a)
        | none => t
      else t
    | none => t) t

/-- `AppVolumeController.handle_message` (`app_volume_serial.py` lines 199-283). -/
def serialHandle (s : SerialState) (m : Msg) : SerialState × List Sent :=
  match m with
  | .test => (s, [.test_response "ready"])
  | .connected => ({ s with connected := true }, [])
  | .initial_config entries =>
    -- lines 212-226: rebuild the table (no de-duplication pass; later same-name
    -- entries overwrite earlier ones via dict assignment)
    ({ s with apps := entries.foldl (fun t a =>
        match a.name with
        | some n => if n ≠ "" then insertT t n a else t
        | none => t) [] }, [])
  | .icon_data app =>
    -- lines 228-237: remember which app the next marker-framed payload is for
    (match app with
     | some a =>
       if a ≠ "" ∧ (lookupT s.apps a).isSome then
         ({ s with current_icon_app := some a }, [])
       else (s, [])
     | none => (s, []))
  | .init_complete => (s, [.ready])
  | .app_changes added removed updated =>
    let t := serialApplyUpdated (applyRemoved (applyAdded s.apps added) removed) updated
    ({ s with apps := t }, [])
  | _ => (s, [])

/-- A decoded item produced while feeding bytes through the codec: either a JSON
message (parsed line) or a stored marker-framed icon payload. -/
inductive Event where
  | msg (m : Msg)
  | icon (app : String) (data : Bytes)
deriving DecidableEq

/-- `app_volume_serial.py` lines 119-137: JSON text found in front of an icon start
marker is split on newlines and each valid piece is dispatched immediately. -/
def handlePrefixLines (jp : Bytes → Option Msg) (s : SerialState) (chunkPre : Bytes) :
    SerialState × List Event :=
  let pre := stripWS chunkPre
  if pre = [] then (s, [])
  else
    (List.splitOn 10 pre).foldl (fun acc piece =>
      let q := stripWS piece
      if q = [] then acc
      else
        match jp q with
        | some m => ((serialHandle acc.1 m).1, acc.2 ++ [Event.msg m])
        | none => acc) (s, [])

/-- `app_volume_serial.py` lines 146-166: the `while b'\n' in buffer` loop.  Returns
the remaining buffer and the first stripped, JSON-valid line, if any.  Fuel-driven
(called with `fuel = buf.length`, enough since each round consumes a newline). -/
def lineLoop (jp : Bytes → Option Msg) : Nat → Bytes → Bytes × Option Bytes
  | 0, buf => (buf, none)
  | fuel + 1, buf =>
    match splitAtNl buf with
    | none => (buf, none)
    | some (pre, rest) =>
      let line := stripWS pre
      if line ≠ [] ∧ (jp line).isSome then (rest, some line)
      else lineLoop jp fuel rest

/-- `AppVolumeController.read_line` (`app_volume_serial.py` lines 71-179) on one
chunk of freshly read bytes (`data = self.cdc.read(256)`; an empty read skips the
body).  Returns the new state, the decoded events that were dispatched inside the
call, and the line returned to the caller, if any. -/
def readLineStep (jp : Bytes → Option Msg) (s : SerialState) (data : Bytes) :
    SerialState × List Event × Option Bytes :=
  if data = [] then (s, [], none)
  else
    let buf := s.input_buffer ++ data
    if s.receiving_icon then
      match findSub buf iconEndMarker with
      | some endIdx =>
        -- lines 88-106: complete the payload, strip marker bytes, store the icon
        let iconAll := s.current_icon_data ++ buf.take endIdx
        let rest := buf.drop (endIdx + iconEndMarker.length)
        let stored : Option (String × Bytes) :=
          match s.current_icon_app with
          | some appn =>
            if appn ≠ "" ∧ iconAll ≠ [] then
              let clean := rmAll iconEndMarker
                (rmAll iconStartMarker iconAll.length iconAll).length
                (rmAll iconStartMarker iconAll.length iconAll)
              match lookupT s.apps appn with
              | some _ => some (appn, clean)
              | none => none  -- KeyError, caught and logged
            else none
          | none => none
        let apps' :=
          match stored with
          | some (appn, clean) =>
            match lookupT s.apps appn with
            | some e => insertT s.apps appn { e with icon := some clean }
            | none => s.apps
          | none => s.apps
        ({ s with apps := apps', input_buffer := rest, receiving_icon := false,
                  current_icon_data := [], current_icon_app := none },
          (match stored with
           | some (appn, clean) => [Event.icon appn clean]
           | none => []),
          none)
      | none =>
        -- lines 107-113: keep accumulating
        ({ s with current_icon_data := s.current_icon_data ++ buf, input_buffer := [] },
          [], none)
    else
      match findSub buf iconStartMarker with
      | some startIdx =>
        -- lines 116-144: dispatch any text before the marker, enter icon mode
        let r := if startIdx > 0 then handlePrefixLines jp s (buf.take startIdx) else (s, [])
        ({ r.1 with receiving_icon := true, current_icon_data := [],
                    input_buffer := buf.drop (startIdx + iconStartMarker.length) },
          r.2, none)
      | none =>
        match lineLoop jp buf.length buf with
        | (rest, some line) => ({ s with input_buffer := rest }, [], some line)
        | (rest, none) =>
          -- lines 169-171: cap the buffer at 1024 bytes
          ({ s with input_buffer := if rest.length > 1024 then [] else rest }, [], none)

/-- `AppVolumeController.update` (`app_volume_serial.py` lines 285-305) restricted to
one inbound chunk: run `read_line`, then parse and dispatch a returned line. -/
def updateStep (jp : Bytes → Option Msg) (s : SerialState) (chunk : Bytes) :
    SerialState × List Event :=
  let r := readLineStep jp s chunk
  match r.2.2 with
  | some line =>
    match jp line with
    | some m => ((serialHandle r.1 m).1, r.2.1 ++ [Event.msg m])
    | none => (r.1, r.2.1)
  | none => (r.1, r.2.1)

/-- Feed a sequence of chunks through the read loop, concatenating the decoded
events. -/
def feedChunks (jp : Bytes → Option Msg) (s : SerialState) : List Bytes →
    SerialState × List Event
  | [] => (s, [])
  | c :: cs =>
    let r := updateStep jp s c
    let r' := feedChunks jp r.1 cs
    (r'.1, r.2 ++ r'.2)

/-! ## Association-list (Python dict) lemmas -/

theorem lookupT_insertT (t : Table) (n : String) (v : AppEntry) (k : String) :
    lookupT (insertT t n v) k = if k = n then some v else lookupT t k := by
  induction t with
  | nil =>
    by_cases h : k = n
    · subst h; simp [insertT, lookupT]
    · simp only [insertT, lookupT]
      rw [if_neg (fun hh : n = k => h hh.symm), if_neg h]
  | cons p t ih =>
    obtain ⟨m, w⟩ := p
    by_cases hmn : m = n
    · subst hmn
      by_cases h : k = m
      · subst h; simp [insertT, lookupT]
      · simp only [insertT, if_pos rfl, lookupT]
        rw [if_neg (fun hh : m = k => h hh.symm), if_neg h,
          if_neg (fun hh : m = k => h hh.symm)]
    · simp only [insertT, if_neg hmn, lookupT]
      by_cases hmk : m = k
      · subst hmk
        simp [hmn]
      · rw [if_neg hmk, ih, if_neg hmk]

theorem lookupT_eraseT_ne (t : Table) (n k : String) (h : k ≠ n) :
    lookupT (eraseT t n) k = lookupT t k := by
  induction t with
  | nil => rfl
  | cons p t ih =>
    obtain ⟨m, w⟩ := p
    by_cases hmn : m = n
    · subst hmn
      have hmk : ¬m = k := fun hh => h hh.symm
      simp [eraseT, lookupT, hmk]
    · simp only [eraseT, if_neg hmn, lookupT, ih]

theorem lookupT_eq_none_iff (t : Table) (k : String) :
    lookupT t k = none ↔ k ∉ keysOf t := by
  induction t with
  | nil => simp [lookupT, keysOf]
  | cons p t ih =>
    obtain ⟨m, w⟩ := p
    by_cases h : m = k
    · subst h
      simp [lookupT, keysOf]
    · have hk : ¬k = m := fun hh => h hh.symm
      simp [lookupT, keysOf, h, hk, ih]

theorem lookupT_eraseT_self (t : Table) (n : String) (h : nodupKeys t) :
    lookupT (eraseT t n) n = none := by
  induction t with
  | nil => rfl
  | cons p t ih =>
    obtain ⟨m, w⟩ := p
    simp only [nodupKeys, keysOf, List.map_cons, List.nodup_cons] at h
    simp only [eraseT]
    by_cases hmn : m = n
    · subst hmn
      simp only [if_pos rfl]
      exact (lookupT_eq_none_iff t m).2 h.1
    · simp only [if_neg hmn, lookupT, if_neg hmn]
      exact ih h.2

theorem keysOf_eraseT_sublist (t : Table) (n : String) :
    (keysOf (eraseT t n)).Sublist (keysOf t) := by
  induction t with
  | nil => simp [eraseT, keysOf]
  | cons p t ih =>
    obtain ⟨m, w⟩ := p
    simp only [eraseT]
    by_cases hmn : m = n
    · simp only [if_pos hmn, keysOf, List.map_cons]
      exact List.sublist_cons_of_sublist m (List.Sublist.refl _)
    · simp only [if_neg hmn, keysOf, List.map_cons]
      exact List.Sublist.cons₂ m ih

theorem nodupKeys_eraseT (t : Table) (n : String) (h : nodupKeys t) :
    nodupKeys (eraseT t n) :=
  List.Nodup.sublist (keysOf_eraseT_sublist t n) h

theorem keysOf_insertT (t : Table) (n : String) (v : AppEntry) :
    keysOf (insertT t n v) = if (lookupT t n).isSome then keysOf t else keysOf t ++ [n] := by
  induction t with
  | nil => simp [insertT, lookupT, keysOf]
  | cons p t ih =>
    obtain ⟨m, w⟩ := p
    by_cases hmn : m = n
    · subst hmn
      simp [insertT, lookupT, keysOf]
    · simp only [keysOf, List.map_cons] at ih
      simp only [insertT, if_neg hmn, lookupT, keysOf, List.map_cons, ih]
      by_cases hs : (lookupT t n).isSome <;> simp [hs]

theorem nodupKeys_insertT (t : Table) (n : String) (v : AppEntry) (h : nodupKeys t) :
    nodupKeys (insertT t n v) := by
  unfold nodupKeys
  rw [keysOf_insertT]
  by_cases hs : (lookupT t n).isSome
  · simpa [hs] using h
  · simp only [hs, if_false, Bool.false_eq_true]
    rw [List.nodup_append]
    refine ⟨h, List.nodup_singleton n, ?_⟩
    intro a ha hb
    simp only [List.mem_singleton] at hb
    subst hb
    exact ((lookupT_eq_none_iff t a).1 (Option.not_isSome_iff_eq_none.1 hs)) ha

theorem mem_of_lookupT (t : Table) (k : String) (v : AppEntry)
    (h : lookupT t k = some v) : (k, v) ∈ t := by
  induction t with
  | nil => simp [lookupT] at h
  | cons p t ih =>
    obtain ⟨m, w⟩ := p
    by_cases hmk : m = k
    · subst hmk
      simp only [lookupT, ite_true, eq_self_iff_true, if_true, Option.some.injEq] at h
      subst h
      exact List.mem_cons_self _ _
    · simp only [lookupT, if_neg hmk] at h
      exact List.mem_cons_of_mem _ (ih h)

theorem lookupT_isSome_of_mem (t : Table) (k : String) (v : AppEntry)
    (h : (k, v) ∈ t) : (lookupT t k).isSome := by
  induction t with
  | nil => simp at h
  | cons p t ih =>
    obtain ⟨m, w⟩ := p
    rcases List.mem_cons.1 h with h1 | h1
    · rw [Prod.mk.injEq] at h1
      obtain ⟨h2, h3⟩ := h1
      subst h2
      simp [lookupT]
    · simp only [lookupT]
      by_cases hmk : m = k
      · simp [hmk]
      · rw [if_neg hmk]
        exact ih h1

/-! ## Branch characterizations of `commHandle` -/

theorem entry_set_volume_icon (e : AppEntry) (vv : Int) :
    { e with volume := some vv, icon := e.icon } = { e with volume := some vv } := rfl

theorem entry_set_muted_icon (e : AppEntry) (vv : Bool) :
    { e with muted := some vv, icon := e.icon } = { e with muted := some vv } := rfl

theorem commHandle_volume_update (s : CommState) (app : Option String) (v : Option Int) :
    commHandle s (.volume_update app v) =
      match app, v with
      | some a, some vv =>
        if a ≠ "" then
          match lookupT s.apps a with
          | some e => ({ s with apps := insertT s.apps a { e with volume := some vv } }, [])
          | none => (s, [])
        else (s, [])
      | _, _ => (s, []) := by
  rcases app with _ | a
  · simp [commHandle]
  · rcases v with _ | vv
    · simp [commHandle]
    · by_cases ha : a = ""
      · simp [commHandle, ha]
      · simp only [commHandle, ne_eq, ha, not_false_iff, if_true]
        cases hl : lookupT s.apps a with
        | none => simp
        | some e =>
          by_cases hi : e.icon.isSome <;>
            simp [hi, entry_set_volume_icon]

theorem commHandle_mute_update (s : CommState) (app : Option String) (v : Option Bool) :
    commHandle s (.mute_update app v) =
      match app, v with
      | some a, some vv =>
        if a ≠ "" then
          match lookupT s.apps a with
          | some e => ({ s with apps := insertT s.apps a { e with muted := some vv } }, [])
          | none => (s, [])
        else (s, [])
      | _, _ => (s, []) := by
  rcases app with _ | a
  · simp [commHandle]
  · rcases v with _ | vv
    · simp [commHandle]
    · by_cases ha : a = ""
      · simp [commHandle, ha]
      · simp only [commHandle, ne_eq, ha, not_false_iff, if_true]
        cases hl : lookupT s.apps a with
        | none => simp
        | some e =>
          by_cases hi : e.icon.isSome <;>
            simp [hi, entry_set_muted_icon]

/-! ## C1: `init_complete` / `ready` gating -/

/-- C1: the device replies `ready` to `init_complete` exactly when
`received_icons == expected_icons`; an early `init_complete` produces no `ready`
and leaves the state untouched at that moment (the handler only logs a warning). -/
theorem init_complete_ready_gating (s : CommState) :
    ((commHandle s .init_complete).2 =
      if s.received_icons = s.expected_icons then [Sent.ready] else [])
    ∧ (s.received_icons ≠ s.expected_icons → commHandle s .init_complete = (s, [])) := by
  constructor
  · by_cases h : s.received_icons = s.expected_icons <;> simp [commHandle, h]
  · intro h
    simp [commHandle, h]

/-- A state still waiting for one icon (`received_icons = 1 < 2 = expected_icons`). -/
def c1State : CommState :=
  { connected := true, protocol_complete := false, apps := [], expected_icons := 2,
    received_icons := 1, processing_icon := false, current_icon_app := none,
    ui_full := false }

/-- Witness for C1 at a concrete early-`init_complete` state. -/
theorem init_complete_ready_gating_witness :
    c1State.received_icons ≠ c1State.expected_icons
    ∧ commHandle c1State .init_complete = (c1State, []) :=
  ⟨by decide, (init_complete_ready_gating c1State).2 (by decide)⟩

/-! ## C9: handshake direction -/

/-- C9 (amended): the liveness `test` originates from the host
(`VolumeMonitor.try_connect`); the device answers it with `test_response` status
`ok`, then itself sends `request_initial_config` and marks the link connected. -/
theorem handshake_sequence (s : CommState) :
    (commHandle s Msg.test).2 = [Sent.test_response "ok", Sent.request_initial_config]
    ∧ (commHandle s Msg.test).1.connected = true
    ∧ tryConnectFirstSend = Msg.test :=
  ⟨rfl, rfl, rfl⟩

/-- A freshly constructed device state. -/
def c9State : CommState :=
  { connected := false, protocol_complete := false, apps := [], expected_icons := 0,
    received_icons := 0, processing_icon := false, current_icon_app := none,
    ui_full := false }

/-- C9 counterexample: contrary to the claim, `test` is the host's first message
and `test_response` is produced by the device (as its reply to `test`), not by
the host. -/
theorem handshake_roles :
    tryConnectFirstSend = Msg.test
    ∧ (commHandle c9State Msg.test).2 =
        [Sent.test_response "ok", Sent.request_initial_config] :=
  ⟨rfl, rfl⟩

/-! ## C10: unknown-app / missing-field `volume_update` and `mute_update` -/

theorem lookupT_insertT_changed (t : Table) (a : String) (e' : AppEntry) (k : String)
    (hl : (lookupT t a).isSome)
    (h : lookupT (insertT t a e') k ≠ lookupT t k) :
    a = k ∧ (lookupT t k).isSome := by
  rw [lookupT_insertT] at h
  by_cases hka : k = a
  · subst hka
    exact ⟨rfl, hl⟩
  · simp [hka] at h

theorem volume_update_props (s : CommState) (app : Option String) (v : Option Int)
    (k : String) :
    (commHandle s (.volume_update app v)).2 = []
    ∧ ((match app with | some a => lookupT s.apps a = none | none => True) ∨ v = none →
        commHandle s (.volume_update app v) = (s, []))
    ∧ (lookupT (commHandle s (.volume_update app v)).1.apps k ≠ lookupT s.apps k →
        app = some k ∧ (lookupT s.apps k).isSome) := by
  rw [commHandle_volume_update]
  rcases app with _ | a
  · simp
  · rcases v with _ | vv
    · simp
    · by_cases ha : a = ""
      · simp [ha]
      · simp only [ne_eq, ha, not_false_iff, if_true]
        cases hl : lookupT s.apps a with
        | none => simp
        | some e =>
          refine ⟨rfl, ?_, ?_⟩
          · intro h
            simp at h
          · intro h
            obtain ⟨hak, hs⟩ := lookupT_insertT_changed s.apps a _ k (by rw [hl]; rfl) h
            exact ⟨by rw [hak], hs⟩

theorem mute_update_props (s : CommState) (app : Option String) (b : Option Bool)
    (k : String) :
    (commHandle s (.mute_update app b)).2 = []
    ∧ ((match app with | some a => lookupT s.apps a = none | none => True) ∨ b = none →
        commHandle s (.mute_update app b) = (s, []))
    ∧ (lookupT (commHandle s (.mute_update app b)).1.apps k ≠ lookupT s.apps k →
        app = some k ∧ (lookupT s.apps k).isSome) := by
  rw [commHandle_mute_update]
  rcases app with _ | a
  · simp
  · rcases b with _ | bb
    · simp
    · by_cases ha : a = ""
      · simp [ha]
      · simp only [ne_eq, ha, not_false_iff, if_true]
        cases hl : lookupT s.apps a with
        | none => simp
        | some e =>
          refine ⟨rfl, ?_, ?_⟩
          · intro h
            simp at h
          · intro h
            obtain ⟨hak, hs⟩ := lookupT_insertT_changed s.apps a _ k (by rw [hl]; rfl) h
            exact ⟨by rw [hak], hs⟩

/-- C10: a `volume_update` or `mute_update` never sends a reply; when the named
app is not in the table (or the value field is missing) the whole state is left
unchanged; and a lookup can only change at the key named by the message, and only
when that key exists in the table. -/
theorem unknown_app_update_ignored (s : CommState) (app : Option String) (v : Option Int)
    (b : Option Bool) (k : String) :
    ((commHandle s (.volume_update app v)).2 = []
      ∧ (commHandle s (.mute_update app b)).2 = [])
    ∧ ((match app with | some a => lookupT s.apps a = none | none => True) ∨ v = none →
        commHandle s (.volume_update app v) = (s, []))
    ∧ ((match app with | some a => lookupT s.apps a = none | none => True) ∨ b = none →
        commHandle s (.mute_update app b) = (s, []))
    ∧ (lookupT (commHandle s (.volume_update app v)).1.apps k ≠ lookupT s.apps k →
        app = some k ∧ (lookupT s.apps k).isSome)
    ∧ (lookupT (commHandle s (.mute_update app b)).1.apps k ≠ lookupT s.apps k →
        app = some k ∧ (lookupT s.apps k).isSome) := by
  obtain ⟨h1, h2, h3⟩ := volume_update_props s app v k
  obtain ⟨h4, h5, h6⟩ := mute_update_props s app b k
  exact ⟨⟨h1, h4⟩, h2, h5, h3, h6⟩

/-- A session entry for the app `"C"` with no icon. -/
def entryC : AppEntry := ⟨some "C", some 10, some false, some false, none⟩

/-- A table holding only the app `"C"`. -/
def c10State : CommState :=
  { connected := true, protocol_complete := true, apps := [("C", entryC)],
    expected_icons := 0, received_icons := 0, processing_icon := false,
    current_icon_app := none, ui_full := false }

/-- Witness for C10: a `volume_update` for the unknown app `"X"` is fully ignored. -/
theorem unknown_app_update_ignored_witness :
    lookupT c10State.apps "X" = none
    ∧ commHandle c10State (.volume_update (some "X") (some 42)) = (c10State, []) :=
  ⟨by decide, (unknown_app_update_ignored c10State (some "X") (some 42) (some true) "X").2.1
    (Or.inl (by decide))⟩

/-! ## C7: `icon_data` / `ready_for_icon` gating -/

/-- C7 (amended): `icon_data{app}` is answered with `ready_for_icon{app}` iff the
`app` field is present and nonempty, the app is a known session, and no icon is
currently being processed.  Whether the session already holds an icon is NOT
checked. -/
theorem ready_for_icon_gating (s : CommState) (app : Option String) (a : String) :
    Sent.ready_for_icon a ∈ (commHandle s (.icon_data app)).2 ↔
      app = some a ∧ a ≠ "" ∧ (lookupT s.apps a).isSome ∧ s.processing_icon = false := by
  rcases app with _ | x
  · simp [commHandle]
  · by_cases hx : x ≠ "" ∧ (lookupT s.apps x).isSome ∧ s.processing_icon = false
    · simp only [commHandle, if_pos hx, List.mem_singleton, Sent.ready_for_icon.injEq,
        Option.some.injEq]
      constructor
      · intro h
        subst h
        exact ⟨rfl, hx.1, hx.2.1, hx.2.2⟩
      · rintro ⟨h1, _⟩
        exact h1.symm
    · have hnil : (commHandle s (.icon_data (some x))).2 = [] := by
        simp [commHandle, hx]
      rw [hnil]
      simp only [List.not_mem_nil, false_iff]
      rintro ⟨h1, h2, h3, h4⟩
      injection h1 with h1
      subst h1
      exact hx ⟨h2, h3, h4⟩

/-- A session entry for `"C"` that already carries (1-byte) icon data. -/
def entryWithIcon : AppEntry := ⟨some "C", some 10, some false, some true, some [0]⟩

/-- A steady state in which `"C"` already has its icon and nothing is pending. -/
def c7State : CommState :=
  { connected := true, protocol_complete := true, apps := [("C", entryWithIcon)],
    expected_icons := 1, received_icons := 1, processing_icon := false,
    current_icon_app := none, ui_full := true }

/-- C7 counterexample: the session `"C"` already holds an icon and no transfer is
pending, yet `icon_data` is still answered with `ready_for_icon` — the claim's
"has no icon yet" precondition is not enforced by the code. -/
theorem ready_for_icon_sent_despite_icon :
    (match lookupT c7State.apps "C" with
      | some e => e.icon.isSome
      | none => false) = true
    ∧ c7State.processing_icon = false
    ∧ (commHandle c7State (.icon_data (some "C"))).2 = [Sent.ready_for_icon "C"] :=
  ⟨by decide, rfl, by decide⟩

/-! ## C4: wrong-length `icon_data_b64` -/

/-- C4 (amended): an `icon_data_b64` whose decoded payload length differs from
4608 never mutates the state (no icon stored, `received_icons` untouched), and it
is answered with `icon_parsed` status `error` exactly when the `app` and `data`
fields are present (truthy), the app is a known session and no icon is being
processed; in every other wrong-length case nothing is sent at all. -/
theorem icon_b64_wrong_length_no_mutation (s : CommState) (app : Option String)
    (data : Option Bytes) (h : ∀ d, data = some d → d.length ≠ 4608) :
    (commHandle s (.icon_data_b64 app data)).1 = s
    ∧ ((commHandle s (.icon_data_b64 app data)).2 =
        match app, data with
        | some a, some _ =>
          if (lookupT s.apps a).isSome ∧ a ≠ "" ∧ s.processing_icon = false
          then [Sent.icon_parsed a "error"] else []
        | _, _ => []) := by
  rcases app with _ | a
  · simp [commHandle]
  · rcases data with _ | d
    · simp [commHandle]
    · have hd := h d rfl
      cases hl : lookupT s.apps a with
      | none => simp [commHandle, hl]
      | some e =>
        by_cases hc : a ≠ "" ∧ s.processing_icon = false
        · simp [commHandle, hl, hc, hd]
        · simp [commHandle, hl, hc]

/-- A connected state in which `"C"` is a known session without an icon. -/
def c4State : CommState :=
  { connected := true, protocol_complete := false, apps := [("C", entryC)],
    expected_icons := 1, received_icons := 0, processing_icon := false,
    current_icon_app := none, ui_full := false }

/-- Witness for C4 (amended) at a concrete 3-byte payload for the known app. -/
theorem icon_b64_wrong_length_no_mutation_witness :
    (commHandle c4State (.icon_data_b64 (some "C") (some [1, 2, 3]))).1 = c4State
    ∧ (commHandle c4State (.icon_data_b64 (some "C") (some [1, 2, 3]))).2 =
        [Sent.icon_parsed "C" "error"] := by
  have h := icon_b64_wrong_length_no_mutation c4State (some "C") (some [1, 2, 3])
    (by rintro d hd; cases hd; decide)
  exact ⟨h.1, h.2.trans (by decide)⟩

/-- A fresh state with an empty session table. -/
def c4State0 : CommState :=
  { connected := false, protocol_complete := false, apps := [], expected_icons := 0,
    received_icons := 0, processing_icon := false, current_icon_app := none,
    ui_full := false }

/-- C4 counterexample: a wrong-length (5-byte) payload for an app that is not in
the table is dropped with NO `icon_parsed` error reply, contradicting the claim's
"always replies `icon_parsed` with status error". -/
theorem icon_b64_wrong_length_silent :
    ([1, 2, 3, 4, 5] : Bytes).length ≠ 4608
    ∧ lookupT c4State0.apps "X" = none
    ∧ commHandle c4State0 (.icon_data_b64 (some "X") (some [1, 2, 3, 4, 5]))
        = (c4State0, []) :=
  ⟨by decide, by decide, by decide⟩

/-! ## C2: streaming invariance of the byte codec -/

/-- The session entry used by the codec scenarios (no icon stored yet). -/
def exEntry : AppEntry := ⟨some "C", some 50, some false, some true, none⟩

/-- Codec state after the initial config made `"C"` a known app. -/
def exS0 : SerialState := ⟨false, [("C", exEntry)], [], false, [], none⟩

/-- The byte text of the JSON line announcing icon data for `"C"`, i.e.
`123 ... 125` spells the object with `"type": "icon_data"` and `"app": "C"`. -/
def exLine : Bytes := [123, 34, 116, 121, 112, 101, 34, 58, 32, 34, 105, 99, 111, 110,
  95, 100, 97, 116, 97, 34, 44, 32, 34, 97, 112, 112, 34, 58, 32, 34, 67, 34, 125]

/-- The JSON oracle for the codec scenarios: exactly the announcement line parses
(to `icon_data "C"`), mirroring `json.loads` on the bytes that actually occur. -/
def exParse (b : Bytes) : Option Msg :=
  if b = exLine then some (Msg.icon_data (some "C")) else none

/-- Chunk 1: the announcement line and its newline terminator. -/
def exChunk1 : Bytes := exLine ++ [10]

/-- Chunk 2: the icon start marker alone. -/
def exChunk2 : Bytes := iconStartMarker

/-- Chunk 3: a two-byte icon payload followed by the end marker. -/
def exChunk3 : Bytes := [65, 66] ++ iconEndMarker

/-- The same bytes as one single chunk. -/
def exWhole : Bytes := exChunk1 ++ exChunk2 ++ exChunk3

set_option maxRecDepth 8000 in
/-- C2: streaming invariance fails.  Fed the whole byte sequence at once, the read
loop dispatches the announcement message, enters icon mode and returns, leaving
the payload and end marker stuck in the buffer (a later `read()` returns nothing
new, so the buffered bytes are never reprocessed): no icon payload is decoded.
Fed the same bytes in three chunks, the icon payload is decoded and stored.  The
decoded event sequences therefore differ. -/
theorem codec_chunking_divergence :
    exChunk1 ++ exChunk2 ++ exChunk3 = exWhole
    ∧ (feedChunks exParse exS0 [exWhole]).2 = [Event.msg (Msg.icon_data (some "C"))]
    ∧ (feedChunks exParse exS0 [exChunk1, exChunk2, exChunk3]).2 =
        [Event.msg (Msg.icon_data (some "C")), Event.icon "C" [65, 66]]
    ∧ (feedChunks exParse exS0 [exWhole]).2 ≠
        (feedChunks exParse exS0 [exChunk1, exChunk2, exChunk3]).2 := by
  refine ⟨by decide, by decide, by decide, by decide⟩

/-! ## C6: the icon-size invariant -/

/-- The icon-size invariant on a single entry: a present icon has exactly
4608 = 48*48*2 bytes. -/
def iconOkB (a : AppEntry) : Bool :=
  match a.icon with
  | some i => i.length == 4608
  | none => true

/-- The icon-size invariant over a whole session table. -/
def invB (t : Table) : Bool := t.all (fun p => iconOkB p.2)

/-- Codec state mid-transfer: `"C"` is known without an icon and the
marker-framed payload for it is being received. -/
def c6State : SerialState := ⟨true, [("C", exEntry)], [], true, [], some "C"⟩

/-- The closing chunk of the transfer: ten payload bytes, then the end marker. -/
def c6Chunk : Bytes := [1, 2, 3, 4, 5, 6, 7, 8, 9, 11] ++ iconEndMarker

set_option maxRecDepth 8000 in
/-- C6 counterexample: the marker-framed icon receive performs no length check, so
completing a transfer whose payload has 10 bytes attaches a 10-byte icon to the
session, violating the claimed 4608-byte invariant. -/
theorem marker_icon_receive_size_violation :
    invB c6State.apps = true
    ∧ invB (readLineStep (fun _ => none) c6State c6Chunk).1.apps = false := by
  refine ⟨by decide, by decide⟩

theorem invB_iff (t : Table) : invB t = true ↔ ∀ p ∈ t, iconOkB p.2 = true := by
  simp [invB, List.all_eq_true]

theorem mem_insertT (t : Table) (n : String) (v : AppEntry) (p : String × AppEntry)
    (h : p ∈ insertT t n v) : p = (n, v) ∨ p ∈ t := by
  induction t with
  | nil =>
    simp only [insertT, List.mem_singleton] at h
    exact Or.inl h
  | cons q t ih =>
    obtain ⟨m, w⟩ := q
    by_cases hmn : m = n
    · subst hmn
      simp only [insertT, if_pos rfl] at h
      rcases List.mem_cons.1 h with h | h
      · exact Or.inl h
      · exact Or.inr (List.mem_cons_of_mem _ h)
    · simp only [insertT, if_neg hmn] at h
      rcases List.mem_cons.1 h with h | h
      · exact Or.inr (by simp [h])
      · rcases ih h with h1 | h1
        · exact Or.inl h1
        · exact Or.inr (List.mem_cons_of_mem _ h1)

theorem mem_eraseT (t : Table) (n : String) (p : String × AppEntry)
    (h : p ∈ eraseT t n) : p ∈ t := by
  induction t with
  | nil => simp [eraseT] at h
  | cons q t ih =>
    obtain ⟨m, w⟩ := q
    by_cases hmn : m = n
    · subst hmn
      simp only [eraseT, if_pos rfl] at h
      exact List.mem_cons_of_mem _ h
    · simp only [eraseT, if_neg hmn, List.mem_cons] at h
      rcases h with h | h
      · simp [h]
      · exact List.mem_cons_of_mem _ (ih h)

theorem invB_insertT (t : Table) (n : String) (v : AppEntry)
    (ht : invB t = true) (hv : iconOkB v = true) : invB (insertT t n v) = true := by
  rw [invB_iff]
  intro p hp
  rcases mem_insertT t n v p hp with h | h
  · rw [h]
    exact hv
  · exact (invB_iff t).1 ht p h

theorem invB_eraseT (t : Table) (n : String) (ht : invB t = true) :
    invB (eraseT t n) = true := by
  rw [invB_iff]
  intro p hp
  exact (invB_iff t).1 ht p (mem_eraseT t n p hp)

theorem iconOkB_of_icon_none (a : AppEntry) (h : a.icon = none) : iconOkB a = true := by
  simp [iconOkB, h]

theorem iconOkB_updateEntry (old u : AppEntry) (ho : iconOkB old = true)
    (hu : u.icon = none) : iconOkB (updateEntry old u) = true := by
  cases hoi : old.icon with
  | none => simp [updateEntry, dictUpdate, iconOkB, hoi, hu]
  | some i =>
    simp only [updateEntry, dictUpdate, hoi]
    simpa [iconOkB, hoi] using ho

theorem invB_applyAdded (l : List AppEntry) (t : Table) (ht : invB t = true)
    (hl : ∀ a ∈ l, a.icon = none) : invB (applyAdded t l) = true := by
  induction l generalizing t with
  | nil => exact ht
  | cons a l ih =>
    simp only [applyAdded, List.foldl_cons]
    have hstep : invB (match a.name with
        | some n => if n ≠ "" then insertT t n a else t
        | none => t) = true := by
      cases a.name with
      | none => exact ht
      | some n =>
        by_cases hn : n ≠ ""
        · simpa [hn] using invB_insertT t n a ht
            (iconOkB_of_icon_none a (hl a (List.mem_cons_self a l)))
        · simpa [hn] using ht
    exact ih _ hstep (fun b hb => hl b (List.mem_cons_of_mem a hb))

theorem invB_applyRemoved (l : List String) (t : Table) (ht : invB t = true) :
    invB (applyRemoved t l) = true := by
  induction l generalizing t with
  | nil => exact ht
  | cons n l ih =>
    simp only [applyRemoved, List.foldl_cons]
    have hstep : invB (if (lookupT t n).isSome then eraseT t n else t) = true := by
      by_cases hn : (lookupT t n).isSome
      · simpa [hn] using invB_eraseT t n ht
      · simpa [hn] using ht
    exact ih _ hstep

theorem invB_applyUpdated (l : List AppEntry) (t : Table) (ht : invB t = true)
    (hl : ∀ a ∈ l, a.icon = none) : invB (applyUpdated t l) = true := by
  induction l generalizing t with
  | nil => exact ht
  | cons a l ih =>
    simp only [applyUpdated, List.foldl_cons]
    have hstep : invB (match a.name with
        | some n =>
          match lookupT t n with
          | some old => insertT t n (updateEntry old a)
          | none => t
        | none => t) = true := by
      cases a.name with
      | none => exact ht
      | some n =>
        show invB (match lookupT t n with
          | some old => insertT t n (updateEntry old a)
          | none => t) = true
        cases hsome : lookupT t n with
        | none => exact ht
        | some old =>
          have hmem := mem_of_lookupT t n old hsome
          have hold : iconOkB old = true := (invB_iff t).1 ht (n, old) hmem
          exact invB_insertT t n _ ht
            (iconOkB_updateEntry old a hold (hl a (List.mem_cons_self a l)))
    exact ih _ hstep (fun b hb => hl b (List.mem_cons_of_mem a hb))

theorem buildConfig_snd_mem (es : List AppEntry) (seen : List String)
    (p : String × AppEntry) (h : p ∈ (buildConfig seen es).1) : p.2 ∈ es := by
  induction es generalizing seen with
  | nil => simp [buildConfig] at h
  | cons a rest ih =>
    cases ha : a.name with
    | none =>
      simp only [buildConfig, ha] at h
      exact List.mem_cons_of_mem a (ih seen h)
    | some n =>
      by_cases hn : n ≠ "" ∧ n ∉ seen
      · simp only [buildConfig, ha, if_pos hn, List.mem_cons] at h
        rcases h with h | h
        · rw [h]
          exact List.mem_cons_self a rest
        · exact List.mem_cons_of_mem a (ih (n :: seen) h)
      · simp only [buildConfig, ha, if_neg hn] at h
        exact List.mem_cons_of_mem a (ih seen h)

/-- Host-conformant payloads: config entries and change entries carry no `icon`
key (the host's snapshots only ever contain name/volume/muted/has_icon,
cf. `volume_monitor.py` `get_application_volumes`). -/
def cleanMsg : Msg → Bool
  | .initial_config es => es.all (fun a => a.icon.isNone)
  | .app_changes added _ updated =>
    added.all (fun a => a.icon.isNone) && updated.all (fun a => a.icon.isNone)
  | _ => true

/-- C6 (amended): the 4608-byte icon-size invariant is an invariant of the
`communication.py` handler: every dispatch of a host-conformant message (config
and change entries carry no `icon` key, as the host's snapshots never do)
preserves it — the base64 apply stores only validated 4608-byte payloads, config
apply installs icon-free entries, and change apply only preserves existing icons.
The marker-framed receive of `app_volume_serial.py` does NOT preserve it (see the
counterexample), which is what refutes the claim as stated. -/
theorem comm_icon_size_invariant_preserved (s : CommState) (m : Msg)
    (hinv : invB s.apps = true) (hm : cleanMsg m = true) :
    invB (commHandle s m).1.apps = true := by
  cases m with
  | test => exact hinv
  | connected => exact hinv
  | other t => exact hinv
  | init_complete =>
    by_cases h : s.received_icons = s.expected_icons <;> simp [commHandle, h, hinv]
  | icon_data app =>
    rcases app with _ | a
    · exact hinv
    · by_cases hc : a ≠ "" ∧ (lookupT s.apps a).isSome ∧ s.processing_icon = false <;>
        simp [commHandle, hc, hinv]
  | initial_config es =>
    simp only [cleanMsg, List.all_eq_true] at hm
    show invB (buildConfig [] es).1 = true
    rw [invB_iff]
    intro p hp
    exact iconOkB_of_icon_none p.2
      (Option.isNone_iff_eq_none.1 (hm p.2 (buildConfig_snd_mem es [] p hp)))
  | app_changes added removed updated =>
    simp only [cleanMsg, Bool.and_eq_true, List.all_eq_true] at hm
    obtain ⟨hadd, hupd⟩ := hm
    show invB (applyUpdated (applyRemoved (applyAdded s.apps added) removed) updated) = true
    refine invB_applyUpdated updated _ ?_ ?_
    · exact invB_applyRemoved removed _ (invB_applyAdded added _ hinv
        (fun a ha => Option.isNone_iff_eq_none.1 (hadd a ha)))
    · exact fun a ha => Option.isNone_iff_eq_none.1 (hupd a ha)
  | volume_update app v =>
    rw [commHandle_volume_update]
    rcases app with _ | a
    · exact hinv
    · rcases v with _ | vv
      · exact hinv
      · by_cases ha : a = ""
        · simp [ha, hinv]
        · simp only [ne_eq, ha, not_false_iff, if_true]
          cases hl : lookupT s.apps a with
          | none => exact hinv
          | some e =>
            refine invB_insertT _ _ _ hinv ?_
            have he : iconOkB e = true := (invB_iff _).1 hinv (a, e) (mem_of_lookupT _ _ _ hl)
            exact he
  | mute_update app v =>
    rw [commHandle_mute_update]
    rcases app with _ | a
    · exact hinv
    · rcases v with _ | vv
      · exact hinv
      · by_cases ha : a = ""
        · simp [ha, hinv]
        · simp only [ne_eq, ha, not_false_iff, if_true]
          cases hl : lookupT s.apps a with
          | none => exact hinv
          | some e =>
            refine invB_insertT _ _ _ hinv ?_
            have he : iconOkB e = true := (invB_iff _).1 hinv (a, e) (mem_of_lookupT _ _ _ hl)
            exact he
  | icon_data_b64 app data =>
    rcases app with _ | a
    · exact hinv
    · rcases data with _ | d
      · exact hinv
      · simp only [commHandle]
        cases hl : lookupT s.apps a with
        | none => exact hinv
        | some e =>
          by_cases hc : a ≠ "" ∧ s.processing_icon = false
          · by_cases h4 : d.length = 4608
            · simp only [if_pos hc, if_pos h4]
              refine invB_insertT _ _ _ hinv ?_
              simp [iconOkB, h4]
            · simp only [if_pos hc, if_neg h4]
              exact hinv
          · simp only [if_neg hc]
            exact hinv

/-- A device state whose only session `"C"` holds no icon. -/
def c6CommState : CommState :=
  { connected := true, protocol_complete := true, apps := [("C", entryC)],
    expected_icons := 0, received_icons := 0, processing_icon := false,
    current_icon_app := none, ui_full := true }

/-- Witness for C6 (amended) on a concrete host-style `app_changes` dispatch. -/
theorem comm_icon_size_invariant_preserved_witness :
    invB c6CommState.apps = true
    ∧ cleanMsg (Msg.app_changes [⟨some "D", some 30, some false, some false, none⟩] ["X"]
        [⟨some "C", some 20, some true, some false, none⟩]) = true
    ∧ invB (commHandle c6CommState
        (Msg.app_changes [⟨some "D", some 30, some false, some false, none⟩] ["X"]
          [⟨some "C", some 20, some true, some false, none⟩])).1.apps = true :=
  ⟨by decide, by decide,
    comm_icon_size_invariant_preserved c6CommState _ (by decide) (by decide)⟩

/-! ## C5: icon preservation under `app_changes` updates -/

theorem lookupT_applyAdded_not_named (l : List AppEntry) (t : Table) (k : String)
    (h : ∀ a ∈ l, a.name ≠ some k) :
    lookupT (applyAdded t l) k = lookupT t k := by
  induction l generalizing t with
  | nil => rfl
  | cons a l ih =>
    simp only [applyAdded, List.foldl_cons]
    have hstep : lookupT (match a.name with
        | some n => if n ≠ "" then insertT t n a else t
        | none => t) k = lookupT t k := by
      cases ha : a.name with
      | none => rfl
      | some n =>
        have hnk : n ≠ k := fun hh => h a (List.mem_cons_self a l) (hh ▸ ha)
        by_cases hn : n ≠ ""
        · simp only [if_pos hn]
          rw [lookupT_insertT, if_neg (fun hh : k = n => hnk hh.symm)]
        · simp [hn]
    calc lookupT (applyAdded (match a.name with
          | some n => if n ≠ "" then insertT t n a else t
          | none => t) l) k
        = lookupT (match a.name with
          | some n => if n ≠ "" then insertT t n a else t
          | none => t) k := ih _ (fun b hb => h b (List.mem_cons_of_mem a hb))
      _ = lookupT t k := hstep

theorem lookupT_applyRemoved_not_mem (l : List String) (t : Table) (k : String)
    (h : k ∉ l) :
    lookupT (applyRemoved t l) k = lookupT t k := by
  induction l generalizing t with
  | nil => rfl
  | cons r l ih =>
    have hkr : k ≠ r := fun hh => h (hh ▸ List.mem_cons_self r l)
    simp only [applyRemoved, List.foldl_cons]
    have hstep : lookupT (if (lookupT t r).isSome then eraseT t r else t) k
        = lookupT t k := by
      by_cases hr : (lookupT t r).isSome
      · simp only [if_pos hr]
        exact lookupT_eraseT_ne t r k hkr
      · simp [hr]
    calc lookupT (applyRemoved (if (lookupT t r).isSome then eraseT t r else t) l) k
        = lookupT (if (lookupT t r).isSome then eraseT t r else t) k :=
          ih _ (fun hb => h (List.mem_cons_of_mem r hb))
      _ = lookupT t k := hstep

theorem lookupT_applyUpdated_not_named (l : List AppEntry) (t : Table) (k : String)
    (h : ∀ a ∈ l, a.name ≠ some k) :
    lookupT (applyUpdated t l) k = lookupT t k := by
  induction l generalizing t with
  | nil => rfl
  | cons a l ih =>
    simp only [applyUpdated, List.foldl_cons]
    have hstep : lookupT (match a.name with
        | some n =>
          match lookupT t n with
          | some old => insertT t n (updateEntry old a)
          | none => t
        | none => t) k = lookupT t k := by
      cases ha : a.name with
      | none => rfl
      | some n =>
        have hnk : n ≠ k := fun hh => h a (List.mem_cons_self a l) (hh ▸ ha)
        show lookupT (match lookupT t n with
          | some old => insertT t n (updateEntry old a)
          | none => t) k = lookupT t k
        cases hl : lookupT t n with
        | none => rfl
        | some old =>
          rw [lookupT_insertT, if_neg (fun hh : k = n => hnk hh.symm)]
    calc lookupT (applyUpdated (match a.name with
          | some n =>
            match lookupT t n with
            | some old => insertT t n (updateEntry old a)
            | none => t
          | none => t) l) k
        = lookupT (match a.name with
          | some n =>
            match lookupT t n with
            | some old => insertT t n (updateEntry old a)
            | none => t
          | none => t) k := ih _ (fun b hb => h b (List.mem_cons_of_mem a hb))
      _ = lookupT t k := hstep

theorem updateEntry_fields (e u : AppEntry) (hicon : u.icon = none) :
    (updateEntry e u).icon = e.icon
    ∧ (updateEntry e u).volume = (u.volume <|> e.volume)
    ∧ (updateEntry e u).muted = (u.muted <|> e.muted)
    ∧ (updateEntry e u).has_icon = (u.has_icon <|> e.has_icon)
    ∧ (updateEntry e u).name = (u.name <|> e.name) := by
  cases he : e.icon <;> simp [updateEntry, dictUpdate, he, hicon]

/-- C5: an `app_changes` whose `updated` list carries exactly one entry `u` for
the existing session `n` (and whose other parts do not touch `n`), with `u`
supplying no `icon` field, leaves the stored icon bytes of `n` unchanged while
merging the supplied fields (a supplied field wins, an absent one keeps the old
value). -/
theorem update_preserves_icon (s : CommState) (n : String) (e u : AppEntry)
    (added : List AppEntry) (removed : List String) (U1 U2 : List AppEntry)
    (he : lookupT s.apps n = some e) (hn : u.name = some n) (hicon : u.icon = none)
    (hadd : ∀ a ∈ added, a.name ≠ some n) (hrem : n ∉ removed)
    (hU1 : ∀ a ∈ U1, a.name ≠ some n) (hU2 : ∀ a ∈ U2, a.name ≠ some n) :
    lookupT (commHandle s (.app_changes added removed (U1 ++ u :: U2))).1.apps n
      = some (updateEntry e u)
    ∧ (updateEntry e u).icon = e.icon
    ∧ (updateEntry e u).volume = (u.volume <|> e.volume)
    ∧ (updateEntry e u).muted = (u.muted <|> e.muted)
    ∧ (updateEntry e u).has_icon = (u.has_icon <|> e.has_icon) := by
  obtain ⟨f1, f2, f3, f4, _⟩ := updateEntry_fields e u hicon
  refine ⟨?_, f1, f2, f3, f4⟩
  show lookupT (applyUpdated (applyRemoved (applyAdded s.apps added) removed)
    (U1 ++ u :: U2)) n = some (updateEntry e u)
  have h1 : lookupT (applyAdded s.apps added) n = some e := by
    rw [lookupT_applyAdded_not_named added s.apps n hadd, he]
  have h2 : lookupT (applyRemoved (applyAdded s.apps added) removed) n = some e := by
    rw [lookupT_applyRemoved_not_mem removed _ n hrem, h1]
  set t2 := applyRemoved (applyAdded s.apps added) removed with ht2
  have h3 : lookupT (applyUpdated t2 U1) n = some e := by
    rw [lookupT_applyUpdated_not_named U1 t2 n hU1, h2]
  have hsplit : applyUpdated t2 (U1 ++ u :: U2)
      = applyUpdated (applyUpdated (applyUpdated t2 U1) [u]) U2 := by
    simp [applyUpdated, List.foldl_append]
  rw [hsplit]
  have h4 : applyUpdated (applyUpdated t2 U1) [u]
      = insertT (applyUpdated t2 U1) n (updateEntry e u) := by
    show (match u.name with
      | some m =>
        match lookupT (applyUpdated t2 U1) m with
        | some old => insertT (applyUpdated t2 U1) m (updateEntry old u)
        | none => applyUpdated t2 U1
      | none => applyUpdated t2 U1) = insertT (applyUpdated t2 U1) n (updateEntry e u)
    rw [hn]
    show (match lookupT (applyUpdated t2 U1) n with
      | some old => insertT (applyUpdated t2 U1) n (updateEntry old u)
      | none => applyUpdated t2 U1) = insertT (applyUpdated t2 U1) n (updateEntry e u)
    rw [h3]
  rw [h4, lookupT_applyUpdated_not_named U2 _ n hU2, lookupT_insertT, if_pos rfl]

/-- A stored session with icon bytes `[9]`. -/
def c5Entry : AppEntry := ⟨some "C", some 50, some false, some true, some [9]⟩

/-- An update entry for `"C"` supplying a new volume and no icon. -/
def c5Upd : AppEntry := ⟨some "C", some 77, none, none, none⟩

/-- A device state holding the iconed session `"C"`. -/
def c5State : CommState :=
  { connected := true, protocol_complete := true, apps := [("C", c5Entry)],
    expected_icons := 1, received_icons := 1, processing_icon := false,
    current_icon_app := none, ui_full := true }

/-- Witness for C5: updating `"C"`'s volume leaves its stored icon `[9]` intact. -/
theorem update_preserves_icon_witness :
    lookupT (commHandle c5State (.app_changes [] [] [c5Upd])).1.apps "C"
      = some (updateEntry c5Entry c5Upd)
    ∧ (updateEntry c5Entry c5Upd).icon = some [9] := by
  have h := update_preserves_icon c5State "C" c5Entry c5Upd [] [] [] []
    (by decide) (by decide) (by decide) (by decide) (by decide) (by decide) (by decide)
  exact ⟨h.1, h.2.1.trans (by decide)⟩

/-! ## C8: applying an `initial_config` -/

theorem bc_lookup (es : List AppEntry) (seen : List String) (k : String)
    (hn : ∀ a ∈ es, a.name ≠ some "") (hk : k ∉ seen) :
    lookupT (buildConfig seen es).1 k = es.find? (fun a => decide (a.name = some k)) := by
  induction es generalizing seen with
  | nil => simp [buildConfig, lookupT]
  | cons a rest ih =>
    have hn1 : a.name ≠ some "" := hn a (List.mem_cons_self a rest)
    have hnr : ∀ b ∈ rest, b.name ≠ some "" := fun b hb => hn b (List.mem_cons_of_mem a hb)
    cases ha : a.name with
    | none =>
      rw [List.find?_cons_of_neg _ (by simp [ha])]
      simp only [buildConfig, ha]
      exact ih seen hnr hk
    | some n =>
      have hne : n ≠ "" := fun hh => hn1 (by rw [ha, hh])
      by_cases hseen : n ∈ seen
      · have hcond : ¬(n ≠ "" ∧ n ∉ seen) := fun hc => hc.2 hseen
        have hnk : ¬(a.name = some k) := by
          rw [ha]
          intro hh
          injection hh with hh
          exact hk (hh ▸ hseen)
        rw [List.find?_cons_of_neg _ (by simp [hnk])]
        simp only [buildConfig, ha, if_neg hcond]
        exact ih seen hnr hk
      · have hcond : n ≠ "" ∧ n ∉ seen := ⟨hne, hseen⟩
        by_cases hnk : n = k
        · subst hnk
          rw [List.find?_cons_of_pos _ (by simp [ha])]
          simp [buildConfig, ha, if_pos hcond, lookupT]
        · rw [List.find?_cons_of_neg _ (by simp [ha, hnk])]
          simp only [buildConfig, ha, if_pos hcond, lookupT, if_neg hnk]
          refine ih (n :: seen) hnr ?_
          intro hmem
          rcases List.mem_cons.1 hmem with hh | hh
          · exact hnk hh.symm
          · exact hk hh

theorem bc_keys_not_seen (es : List AppEntry) (seen : List String) (k : String)
    (h : k ∈ keysOf (buildConfig seen es).1) : k ∉ seen := by
  induction es generalizing seen with
  | nil => simp [buildConfig, keysOf] at h
  | cons a rest ih =>
    cases ha : a.name with
    | none =>
      simp only [buildConfig, ha] at h
      exact ih seen h
    | some n =>
      by_cases hcond : n ≠ "" ∧ n ∉ seen
      · simp only [buildConfig, ha, if_pos hcond, keysOf, List.map_cons,
          List.mem_cons] at h
        rcases h with h | h
        · subst h
          exact hcond.2
        · intro hk
          exact ih (n :: seen) h (List.mem_cons_of_mem n hk)
      · simp only [buildConfig, ha, if_neg hcond] at h
        exact ih seen h

theorem bc_nodup (es : List AppEntry) (seen : List String) :
    nodupKeys (buildConfig seen es).1 := by
  induction es generalizing seen with
  | nil => simp [buildConfig, nodupKeys, keysOf]
  | cons a rest ih =>
    cases ha : a.name with
    | none =>
      simp only [buildConfig, ha]
      exact ih seen
    | some n =>
      by_cases hcond : n ≠ "" ∧ n ∉ seen
      · simp only [buildConfig, ha, if_pos hcond, nodupKeys, keysOf, List.map_cons,
          List.nodup_cons]
        refine ⟨?_, ih (n :: seen)⟩
        intro hmem
        exact bc_keys_not_seen rest (n :: seen) n hmem (List.mem_cons_self n seen)
      · simp only [buildConfig, ha, if_neg hcond]
        exact ih seen

theorem bc_mem_keys (es : List AppEntry) (seen : List String) (k : String)
    (hn : ∀ a ∈ es, a.name ≠ some "") (hk : k ∉ seen) :
    k ∈ keysOf (buildConfig seen es).1 ↔ ∃ a ∈ es, a.name = some k := by
  induction es generalizing seen with
  | nil => simp [buildConfig, keysOf]
  | cons a rest ih =>
    have hn1 : a.name ≠ some "" := hn a (List.mem_cons_self a rest)
    have hnr : ∀ b ∈ rest, b.name ≠ some "" := fun b hb => hn b (List.mem_cons_of_mem a hb)
    cases ha : a.name with
    | none =>
      simp only [buildConfig, ha]
      rw [ih seen hnr hk]
      simp [ha]
    | some n =>
      have hne : n ≠ "" := fun hh => hn1 (by rw [ha, hh])
      by_cases hseen : n ∈ seen
      · have hcond : ¬(n ≠ "" ∧ n ∉ seen) := fun hc => hc.2 hseen
        simp only [buildConfig, ha, if_neg hcond]
        rw [ih seen hnr hk]
        constructor
        · rintro ⟨b, hb, hbk⟩
          exact ⟨b, List.mem_cons_of_mem a hb, hbk⟩
        · rintro ⟨b, hb, hbk⟩
          rcases List.mem_cons.1 hb with hb | hb
          · subst hb
            rw [ha] at hbk
            injection hbk with hbk
            exact absurd (hbk ▸ hseen) hk
          · exact ⟨b, hb, hbk⟩
      · have hcond : n ≠ "" ∧ n ∉ seen := ⟨hne, hseen⟩
        simp only [buildConfig, ha, if_pos hcond, keysOf, List.map_cons, List.mem_cons]
        by_cases hnk : k = n
        · subst hnk
          constructor
          · intro _
            exact ⟨a, Or.inl rfl, ha⟩
          · intro _
            exact Or.inl rfl
        · have hk2 : k ∉ n :: seen := by
            intro hmem
            rcases List.mem_cons.1 hmem with hh | hh
            · exact hnk hh
            · exact hk hh
          have ihh := ih (n :: seen) hnr hk2
          simp only [keysOf] at ihh
          rw [ihh]
          constructor
          · rintro (hh | ⟨b, hb, hbk⟩)
            · exact absurd hh hnk
            · exact ⟨b, Or.inr hb, hbk⟩
          · rintro ⟨b, hb | hb, hbk⟩
            · subst hb
              rw [ha] at hbk
              injection hbk with hbk
              exact absurd hbk.symm hnk
            · exact Or.inr ⟨b, hb, hbk⟩

theorem bc_count (es : List AppEntry) (seen : List String) :
    (buildConfig seen es).2
      = List.countP (fun a => decide (a.has_icon = some true))
          ((buildConfig seen es).1.map Prod.snd) := by
  induction es generalizing seen with
  | nil => simp [buildConfig]
  | cons a rest ih =>
    cases ha : a.name with
    | none =>
      simp only [buildConfig, ha]
      exact ih seen
    | some n =>
      by_cases hcond : n ≠ "" ∧ n ∉ seen
      · simp only [buildConfig, ha, if_pos hcond, List.map_cons, List.countP_cons]
        rw [ih (n :: seen)]
        by_cases hi : a.has_icon = some true <;> simp [hi, Nat.add_comm]
      · simp only [buildConfig, ha, if_neg hcond]
        exact ih seen

/-- C8: applying `initial_config` (entries assumed not to carry the empty string
as a name — an empty or missing name is not a session name in the data model)
replaces the whole table, keeps the first occurrence per name (`lookupT` equals
`find?` on the entry list), makes the table keys pairwise distinct and exactly
the set of names occurring in the entries (so `apps.length`, the reported
`unique_apps`, is the number of distinct names), sets `expected_icons` to the
number of kept entries whose `has_icon` is true, resets `received_icons` to 0,
and acknowledges with `config_received` status ok carrying `unique_apps`. -/
theorem initial_config_apply (s : CommState) (entries : List AppEntry) (k : String)
    (hn : ∀ a ∈ entries, a.name ≠ some "") :
    lookupT (commHandle s (.initial_config entries)).1.apps k
      = entries.find? (fun a => decide (a.name = some k))
    ∧ nodupKeys (commHandle s (.initial_config entries)).1.apps
    ∧ (k ∈ keysOf (commHandle s (.initial_config entries)).1.apps ↔
        ∃ a ∈ entries, a.name = some k)
    ∧ (commHandle s (.initial_config entries)).1.expected_icons
      = List.countP (fun a => decide (a.has_icon = some true))
          ((commHandle s (.initial_config entries)).1.apps.map Prod.snd)
    ∧ (commHandle s (.initial_config entries)).1.received_icons = 0
    ∧ (commHandle s (.initial_config entries)).2
      = [Sent.config_received "ok"
          (commHandle s (.initial_config entries)).1.apps.length] := by
  refine ⟨?_, ?_, ?_, ?_, rfl, rfl⟩
  · exact bc_lookup entries [] k hn (by simp)
  · exact bc_nodup entries []
  · exact bc_mem_keys entries [] k hn (by simp)
  · exact bc_count entries []

/-- First `"Chrome"` entry (with icon), the one de-duplication must keep. -/
def c8e1 : AppEntry := ⟨some "Chrome", some 50, some false, some true, none⟩

/-- Duplicate `"Chrome"` entry that must be dropped. -/
def c8e2 : AppEntry := ⟨some "Chrome", some 20, some true, some false, none⟩

/-- A second distinct app. -/
def c8e3 : AppEntry := ⟨some "Spotify", some 30, some false, some false, none⟩

/-- A fresh device state for the config exchange. -/
def c8State : CommState :=
  { connected := true, protocol_complete := false, apps := [], expected_icons := 0,
    received_icons := 3, processing_icon := false, current_icon_app := none,
    ui_full := false }

/-- Witness for C8: three entries with one duplicated name produce the
first-occurrence table, `expected_icons = 1`, a reset counter and
`config_received` with `unique_apps = 2`. -/
theorem initial_config_apply_witness :
    lookupT (commHandle c8State (.initial_config [c8e1, c8e2, c8e3])).1.apps "Chrome"
      = some c8e1
    ∧ (commHandle c8State (.initial_config [c8e1, c8e2, c8e3])).1.expected_icons = 1
    ∧ (commHandle c8State (.initial_config [c8e1, c8e2, c8e3])).1.received_icons = 0
    ∧ (commHandle c8State (.initial_config [c8e1, c8e2, c8e3])).2
        = [Sent.config_received "ok" 2] := by
  have h := initial_config_apply c8State [c8e1, c8e2, c8e3] "Chrome" (by decide)
  exact ⟨h.1.trans (by decide), h.2.2.2.1.trans (by decide), h.2.2.2.2.1,
    h.2.2.2.2.2.trans (by decide)⟩

/-! ## C3: diff correctness and round trip -/

/-- The tracked projection of a session: name, volume, mute flag. -/
def trackedO (o : Option AppEntry) : Option (Option String × Option Int × Option Bool) :=
  o.map (fun a => (a.name, a.volume, a.muted))

/-- Well-formedness of host snapshot tables (`current_apps = {app["name"]: app}`
built from `get_application_volumes`): every entry is stored under its own
nonempty name and carries volume and mute values. -/
def coherent (t : Table) : Prop :=
  ∀ p ∈ t, p.2.name = some p.1 ∧ p.1 ≠ "" ∧ p.2.volume.isSome ∧ p.2.muted.isSome

theorem mem_removed_iff (last cur : Table) (k : String) :
    k ∈ (computeChanges last cur).removed ↔
      (lookupT last k).isSome ∧ lookupT cur k = none := by
  simp only [computeChanges, List.mem_map, List.mem_filter]
  constructor
  · rintro ⟨⟨m, v⟩, ⟨hmem, hnone⟩, hfst⟩
    subst hfst
    exact ⟨lookupT_isSome_of_mem last m v hmem, of_decide_eq_true hnone⟩
  · rintro ⟨hsome, hnone⟩
    obtain ⟨v, hv⟩ := Option.isSome_iff_exists.1 hsome
    exact ⟨(k, v), ⟨mem_of_lookupT last k v hv, decide_eq_true hnone⟩, rfl⟩

theorem added_mem (last cur : Table) (a : AppEntry)
    (h : a ∈ (computeChanges last cur).added) :
    ∃ p ∈ cur, lookupT last p.1 = none ∧ a = p.2 := by
  simp only [computeChanges, List.mem_filterMap] at h
  obtain ⟨p, hp, hfa⟩ := h
  refine ⟨p, hp, ?_, ?_⟩
  · cases hl : lookupT last p.1 with
    | none => rfl
    | some b => rw [hl] at hfa; cases hfa
  · cases hl : lookupT last p.1 with
    | none =>
      rw [hl] at hfa
      injection hfa with hfa
      exact hfa.symm
    | some b => rw [hl] at hfa; cases hfa

theorem nodupKeys_applyAdded (l : List AppEntry) (t : Table) (h : nodupKeys t) :
    nodupKeys (applyAdded t l) := by
  induction l generalizing t with
  | nil => exact h
  | cons a l ih =>
    simp only [applyAdded, List.foldl_cons]
    refine ih _ ?_
    cases a.name with
    | none => exact h
    | some n =>
      by_cases hn : n ≠ ""
      · simpa [hn] using nodupKeys_insertT t n a h
      · simpa [hn] using h

/-- What the `added` list of a diff contributes at key `k`. -/
def diffAddLookup (o1 o2 : Option AppEntry) : Option AppEntry :=
  match o1, o2 with
  | none, some a => some a
  | _, _ => none

@[simp] theorem diffAddLookup_some (w : AppEntry) (x : Option AppEntry) :
    diffAddLookup (some w) x = none := rfl

@[simp] theorem diffAddLookup_none_some (a : AppEntry) :
    diffAddLookup none (some a) = some a := rfl

@[simp] theorem diffAddLookup_none_none : diffAddLookup none none = none := rfl

/-- What the `updated` list of a diff contributes at key `k`. -/
def diffUpdLookup (o1 o2 : Option AppEntry) : Option AppEntry :=
  match o1, o2 with
  | some b, some a =>
    if a.volume ≠ b.volume ∨ a.muted ≠ b.muted then some a else none
  | _, _ => none

@[simp] theorem diffUpdLookup_none (x : Option AppEntry) :
    diffUpdLookup none x = none := rfl

@[simp] theorem diffUpdLookup_some_none (b : AppEntry) :
    diffUpdLookup (some b) none = none := rfl

@[simp] theorem diffUpdLookup_some_some (b a : AppEntry) :
    diffUpdLookup (some b) (some a)
      = if a.volume ≠ b.volume ∨ a.muted ≠ b.muted then some a else none := rfl

theorem added_find (last cur : Table) (k : String) (h2 : nodupKeys cur)
    (hc2 : coherent cur) :
    (computeChanges last cur).added.find? (fun a => decide (a.name = some k))
      = diffAddLookup (lookupT last k) (lookupT cur k) := by
  induction cur with
  | nil =>
    simp only [computeChanges, List.filterMap_nil, List.find?_nil, lookupT]
    cases lookupT last k <;> rfl
  | cons p rest ih =>
    obtain ⟨m, b⟩ := p
    obtain ⟨hbn, hbne, _, _⟩ := hc2 (m, b) (List.mem_cons_self _ _)
    have hbn2 : b.name = some m := hbn
    have h2t : nodupKeys rest := by
      simp only [nodupKeys, keysOf, List.map_cons, List.nodup_cons] at h2
      exact h2.2
    have hc2t : coherent rest := fun q hq => hc2 q (List.mem_cons_of_mem _ hq)
    have ihh := ih h2t hc2t
    have hadd : (computeChanges last ((m, b) :: rest)).added
        = (match lookupT last m with
          | none => b :: (computeChanges last rest).added
          | some _ => (computeChanges last rest).added) := by
      simp only [computeChanges, List.filterMap_cons]
      cases lookupT last m <;> rfl
    by_cases hmk : m = k
    · subst hmk
      cases hlast : lookupT last m with
      | none =>
        rw [hadd]
        simp only [hlast]
        have hfind : List.find? (fun a => decide (a.name = some m))
            (b :: (computeChanges last rest).added) = some b := by
          rw [List.find?_cons_of_pos]
          simp [hbn2]
        rw [hfind]
        simp [lookupT]
      | some w =>
        rw [hadd]
        simp only [hlast]
        rw [ihh]
        simp [hlast, lookupT]
    · have hlk : lookupT ((m, b) :: rest) k = lookupT rest k := by
        simp [lookupT, hmk]
      cases hlast : lookupT last m with
      | none =>
        rw [hadd]
        simp only [hlast]
        have hfind : List.find? (fun a => decide (a.name = some k))
            (b :: (computeChanges last rest).added)
            = List.find? (fun a => decide (a.name = some k))
              (computeChanges last rest).added := by
          rw [List.find?_cons_of_neg]
          simp [hbn2, hmk]
        rw [hfind, ihh, hlk]
      | some w =>
        rw [hadd]
        simp only [hlast]
        rw [ihh, hlk]

theorem updated_find (last cur : Table) (k : String) (h2 : nodupKeys cur)
    (hc2 : coherent cur) :
    (computeChanges last cur).updated.find? (fun a => decide (a.name = some k))
      = diffUpdLookup (lookupT last k) (lookupT cur k) := by
  induction cur with
  | nil =>
    simp only [computeChanges, List.filterMap_nil, List.find?_nil, lookupT]
    cases lookupT last k <;> rfl
  | cons p rest ih =>
    obtain ⟨m, b⟩ := p
    obtain ⟨hbn, hbne, _, _⟩ := hc2 (m, b) (List.mem_cons_self _ _)
    have hbn2 : b.name = some m := hbn
    have h2t : nodupKeys rest := by
      simp only [nodupKeys, keysOf, List.map_cons, List.nodup_cons] at h2
      exact h2.2
    have hmnotin : m ∉ keysOf rest := by
      simp only [nodupKeys, keysOf, List.map_cons, List.nodup_cons] at h2
      exact h2.1
    have hc2t : coherent rest := fun q hq => hc2 q (List.mem_cons_of_mem _ hq)
    have ihh := ih h2t hc2t
    have hupd : (computeChanges last ((m, b) :: rest)).updated
        = (match lookupT last m with
          | none => (computeChanges last rest).updated
          | some w =>
            if b.volume ≠ w.volume ∨ b.muted ≠ w.muted
            then b :: (computeChanges last rest).updated
            else (computeChanges last rest).updated) := by
      simp only [computeChanges, List.filterMap_cons]
      cases lookupT last m with
      | none => rfl
      | some w => by_cases hch : b.volume ≠ w.volume ∨ b.muted ≠ w.muted <;> simp [hch]
    by_cases hmk : m = k
    · subst hmk
      cases hlast : lookupT last m with
      | none =>
        rw [hupd]
        simp only [hlast]
        rw [ihh]
        simp [hlast, lookupT]
      | some w =>
        have hrest : lookupT rest m = none := (lookupT_eq_none_iff rest m).2 hmnotin
        by_cases hch : b.volume ≠ w.volume ∨ b.muted ≠ w.muted
        · rw [hupd]
          simp only [hlast, if_pos hch]
          have hfind : List.find? (fun a => decide (a.name = some m))
              (b :: (computeChanges last rest).updated) = some b := by
            rw [List.find?_cons_of_pos]
            simp [hbn2]
          rw [hfind]
          simp [lookupT, hch]
        · rw [hupd]
          simp only [hlast, if_neg hch]
          rw [ihh]
          simp [hlast, hrest, lookupT, hch]
    · have hlk : lookupT ((m, b) :: rest) k = lookupT rest k := by
        simp [lookupT, hmk]
      cases hlast : lookupT last m with
      | none =>
        rw [hupd]
        simp only [hlast]
        rw [ihh, hlk]
      | some w =>
        by_cases hch : b.volume ≠ w.volume ∨ b.muted ≠ w.muted
        · rw [hupd]
          simp only [hlast, if_pos hch]
          have hfind : List.find? (fun a => decide (a.name = some k))
              (b :: (computeChanges last rest).updated)
              = List.find? (fun a => decide (a.name = some k))
                (computeChanges last rest).updated := by
            rw [List.find?_cons_of_neg]
            simp [hbn2, hmk]
          rw [hfind, ihh, hlk]
        · rw [hupd]
          simp only [hlast, if_neg hch]
          rw [ihh, hlk]

theorem lookupT_applyAdded_find (A : List AppEntry) (t : Table) (k : String)
    (hA : ∀ a ∈ A, ∃ m, a.name = some m ∧ m ≠ "")
    (hdist : (A.filterMap AppEntry.name).Nodup) :
    lookupT (applyAdded t A) k
      = (match A.find? (fun a => decide (a.name = some k)) with
        | some a => some a
        | none => lookupT t k) := by
  induction A generalizing t with
  | nil => simp [applyAdded]
  | cons a A ih =>
    obtain ⟨m, hm, hme⟩ := hA a (List.mem_cons_self a A)
    have hAt : ∀ b ∈ A, ∃ n, b.name = some n ∧ n ≠ "" :=
      fun b hb => hA b (List.mem_cons_of_mem a hb)
    have hdist2 := hdist
    simp only [List.filterMap_cons, hm] at hdist2
    have hdt : (A.filterMap AppEntry.name).Nodup := (List.nodup_cons.1 hdist2).2
    have hmnot : m ∉ A.filterMap AppEntry.name := (List.nodup_cons.1 hdist2).1
    have hstep : applyAdded t (a :: A) = applyAdded (insertT t m a) A := by
      simp [applyAdded, hm, hme]
    rw [hstep, ih _ hAt hdt]
    by_cases hmk : m = k
    · subst hmk
      have hfA : A.find? (fun x => decide (x.name = some m)) = none := by
        rw [List.find?_eq_none]
        intro x hx
        simp only [decide_eq_true_eq]
        intro hxm
        exact hmnot (List.mem_filterMap.2 ⟨x, hx, hxm⟩)
      have hfcons : (a :: A).find? (fun x => decide (x.name = some m)) = some a := by
        rw [List.find?_cons_of_pos]
        simp [hm]
      rw [hfA, hfcons, lookupT_insertT, if_pos rfl]
    · have hfcons : (a :: A).find? (fun x => decide (x.name = some k))
          = A.find? (fun x => decide (x.name = some k)) := by
        rw [List.find?_cons_of_neg]
        simp [hm, hmk]
      rw [hfcons, lookupT_insertT, if_neg (fun hh : k = m => hmk hh.symm)]

theorem lookupT_applyRemoved_full (R : List String) (t : Table) (k : String)
    (hnd : nodupKeys t) :
    lookupT (applyRemoved t R) k = if k ∈ R then none else lookupT t k := by
  induction R generalizing t with
  | nil => simp [applyRemoved]
  | cons r R ih =>
    have hnd2 : nodupKeys (if (lookupT t r).isSome then eraseT t r else t) := by
      by_cases hr : (lookupT t r).isSome
      · simpa [hr] using nodupKeys_eraseT t r hnd
      · simpa [hr] using hnd
    have hstep : applyRemoved t (r :: R)
        = applyRemoved (if (lookupT t r).isSome then eraseT t r else t) R := by
      simp [applyRemoved]
    rw [hstep, ih _ hnd2]
    by_cases hkR : k ∈ R
    · simp [hkR, List.mem_cons]
    · rw [if_neg hkR]
      by_cases hkr : k = r
      · subst hkr
        have hnone : lookupT (if (lookupT t k).isSome then eraseT t k else t) k = none := by
          by_cases hs : (lookupT t k).isSome
          · simp only [if_pos hs]
            exact lookupT_eraseT_self t k hnd
          · simp only [if_neg hs]
            exact Option.not_isSome_iff_eq_none.1 hs
        rw [hnone]
        simp [List.mem_cons]
      · have hsame : lookupT (if (lookupT t r).isSome then eraseT t r else t) k
            = lookupT t k := by
          by_cases hs : (lookupT t r).isSome
          · simp only [if_pos hs]
            exact lookupT_eraseT_ne t r k hkr
          · simp [hs]
        rw [hsame]
        have : k ∉ r :: R := by
          intro hmem
          rcases List.mem_cons.1 hmem with hh | hh
          · exact hkr hh
          · exact hkR hh
        rw [if_neg this]

theorem lookupT_applyUpdated_find (U : List AppEntry) (t : Table) (k : String)
    (hdist : (U.filterMap AppEntry.name).Nodup) :
    lookupT (applyUpdated t U) k
      = (match U.find? (fun a => decide (a.name = some k)) with
        | some u =>
          (match lookupT t k with
          | some old => some (updateEntry old u)
          | none => none)
        | none => lookupT t k) := by
  induction U generalizing t with
  | nil => simp [applyUpdated]
  | cons u U ih =>
    cases hu : u.name with
    | none =>
      have hdt : (U.filterMap AppEntry.name).Nodup := by
        simpa [List.filterMap_cons, hu] using hdist
      have hstep : applyUpdated t (u :: U) = applyUpdated t U := by
        simp [applyUpdated, hu]
      have hfcons : (u :: U).find? (fun x => decide (x.name = some k))
          = U.find? (fun x => decide (x.name = some k)) := by
        rw [List.find?_cons_of_neg]
        simp [hu]
      rw [hstep, ih t hdt, hfcons]
    | some m =>
      have hdist2 := hdist
      simp only [List.filterMap_cons, hu] at hdist2
      have hdt : (U.filterMap AppEntry.name).Nodup := (List.nodup_cons.1 hdist2).2
      have hmnot : m ∉ U.filterMap AppEntry.name := (List.nodup_cons.1 hdist2).1
      have hstep : applyUpdated t (u :: U)
          = applyUpdated (match lookupT t m with
              | some old => insertT t m (updateEntry old u)
              | none => t) U := by
        simp [applyUpdated, hu]
      by_cases hmk : m = k
      · subst hmk
        have hfA : U.find? (fun x => decide (x.name = some m)) = none := by
          rw [List.find?_eq_none]
          intro x hx
          simp only [decide_eq_true_eq]
          intro hxm
          exact hmnot (List.mem_filterMap.2 ⟨x, hx, hxm⟩)
        have hfcons : (u :: U).find? (fun x => decide (x.name = some m)) = some u := by
          rw [List.find?_cons_of_pos]
          simp [hu]
        rw [hstep, ih _ hdt, hfA, hfcons]
        cases hl : lookupT t m with
        | none => exact hl
        | some old =>
          show lookupT (insertT t m (updateEntry old u)) m = some (updateEntry old u)
          rw [lookupT_insertT, if_pos rfl]
      · have hfcons : (u :: U).find? (fun x => decide (x.name = some k))
            = U.find? (fun x => decide (x.name = some k)) := by
          rw [List.find?_cons_of_neg]
          simp [hu, hmk]
        rw [hstep, ih _ hdt, hfcons]
        have hlt : lookupT (match lookupT t m with
            | some old => insertT t m (updateEntry old u)
            | none => t) k = lookupT t k := by
          cases hl : lookupT t m with
          | none => rfl
          | some old =>
            show lookupT (insertT t m (updateEntry old u)) k = lookupT t k
            rw [lookupT_insertT, if_neg (fun hh : k = m => hmk hh.symm)]
        rw [hlt]

theorem added_names_ok (last cur : Table) (hc2 : coherent cur) :
    ∀ a ∈ (computeChanges last cur).added, ∃ m, a.name = some m ∧ m ≠ "" := by
  intro a ha
  obtain ⟨p, hp, _, hap⟩ := added_mem last cur a ha
  obtain ⟨hn, hne, _, _⟩ := hc2 p hp
  exact ⟨p.1, by rw [hap]; exact hn, hne⟩

theorem added_names_sublist (last cur : Table) (hc2 : coherent cur) :
    ((computeChanges last cur).added.filterMap AppEntry.name).Sublist (keysOf cur) := by
  induction cur with
  | nil => simp [computeChanges, keysOf]
  | cons p rest ih =>
    obtain ⟨m, b⟩ := p
    have hbn2 : b.name = some m := (hc2 (m, b) (List.mem_cons_self _ _)).1
    have hc2t : coherent rest := fun q hq => hc2 q (List.mem_cons_of_mem _ hq)
    have hadd : (computeChanges last ((m, b) :: rest)).added
        = (match lookupT last m with
          | none => b :: (computeChanges last rest).added
          | some _ => (computeChanges last rest).added) := by
      simp only [computeChanges, List.filterMap_cons]
      cases lookupT last m <;> rfl
    show ((computeChanges last ((m, b) :: rest)).added.filterMap AppEntry.name).Sublist
      (m :: keysOf rest)
    rw [hadd]
    cases hlast : lookupT last m with
    | none =>
      show ((b :: (computeChanges last rest).added).filterMap AppEntry.name).Sublist
        (m :: keysOf rest)
      simp only [List.filterMap_cons, hbn2]
      exact List.Sublist.cons₂ m (ih hc2t)
    | some w =>
      exact List.Sublist.cons m (ih hc2t)

theorem updated_names_sublist (last cur : Table) (hc2 : coherent cur) :
    ((computeChanges last cur).updated.filterMap AppEntry.name).Sublist (keysOf cur) := by
  induction cur with
  | nil => simp [computeChanges, keysOf]
  | cons p rest ih =>
    obtain ⟨m, b⟩ := p
    have hbn2 : b.name = some m := (hc2 (m, b) (List.mem_cons_self _ _)).1
    have hc2t : coherent rest := fun q hq => hc2 q (List.mem_cons_of_mem _ hq)
    have hupd : (computeChanges last ((m, b) :: rest)).updated
        = (match lookupT last m with
          | none => (computeChanges last rest).updated
          | some w =>
            if b.volume ≠ w.volume ∨ b.muted ≠ w.muted
            then b :: (computeChanges last rest).updated
            else (computeChanges last rest).updated) := by
      simp only [computeChanges, List.filterMap_cons]
      cases lookupT last m with
      | none => rfl
      | some w => by_cases hch : b.volume ≠ w.volume ∨ b.muted ≠ w.muted <;> simp [hch]
    show ((computeChanges last ((m, b) :: rest)).updated.filterMap AppEntry.name).Sublist
      (m :: keysOf rest)
    rw [hupd]
    cases hlast : lookupT last m with
    | none =>
      exact List.Sublist.cons m (ih hc2t)
    | some w =>
      by_cases hch : b.volume ≠ w.volume ∨ b.muted ≠ w.muted
      · show ((if b.volume ≠ w.volume ∨ b.muted ≠ w.muted
            then b :: (computeChanges last rest).updated
            else (computeChanges last rest).updated).filterMap AppEntry.name).Sublist
          (m :: keysOf rest)
        rw [if_pos hch]
        simp only [List.filterMap_cons, hbn2]
        exact List.Sublist.cons₂ m (ih hc2t)
      · show ((if b.volume ≠ w.volume ∨ b.muted ≠ w.muted
            then b :: (computeChanges last rest).updated
            else (computeChanges last rest).updated).filterMap AppEntry.name).Sublist
          (m :: keysOf rest)
        rw [if_neg hch]
        exact List.Sublist.cons m (ih hc2t)

theorem updateEntry_tracked (old u : AppEntry) :
    (updateEntry old u).name = (u.name <|> old.name)
    ∧ (updateEntry old u).volume = (u.volume <|> old.volume)
    ∧ (updateEntry old u).muted = (u.muted <|> old.muted) := by
  cases he : old.icon <;> simp [updateEntry, dictUpdate, he]

/-- C3: the diff the host computes from two of its snapshot tables has disjoint
`added` and `removed` parts (no name is both added and removed), and applying it
to the old snapshot with the device's `app_changes` operations (added upserted,
removed deleted, updated merged) reproduces the new snapshot on the tracked
fields name, volume, muted — pointwise at every key `k`. -/
theorem diff_apply_roundtrip (S1 S2 : Table) (k : String)
    (h1 : nodupKeys S1) (h2 : nodupKeys S2) (hc1 : coherent S1) (hc2 : coherent S2) :
    (¬((∃ a ∈ (computeChanges S1 S2).added, a.name = some k)
        ∧ k ∈ (computeChanges S1 S2).removed))
    ∧ trackedO (lookupT (applyUpdated (applyRemoved
          (applyAdded S1 (computeChanges S1 S2).added)
          (computeChanges S1 S2).removed)
          (computeChanges S1 S2).updated) k)
      = trackedO (lookupT S2 k) := by
  constructor
  · rintro ⟨⟨a, ha, hak⟩, hrem⟩
    obtain ⟨_, hknone⟩ := (mem_removed_iff S1 S2 k).1 hrem
    obtain ⟨p, hp, _, hpa⟩ := added_mem S1 S2 a ha
    obtain ⟨q1, q2⟩ := p
    have hn : q2.name = some q1 := (hc2 (q1, q2) hp).1
    rw [hpa] at hak
    rw [hn] at hak
    injection hak with hak
    subst hak
    have := lookupT_isSome_of_mem S2 q1 q2 hp
    rw [hknone] at this
    cases this
  · have hAnames := added_names_ok S1 S2 hc2
    have hAdist : ((computeChanges S1 S2).added.filterMap AppEntry.name).Nodup :=
      List.Nodup.sublist (added_names_sublist S1 S2 hc2) h2
    have hUdist : ((computeChanges S1 S2).updated.filterMap AppEntry.name).Nodup :=
      List.Nodup.sublist (updated_names_sublist S1 S2 hc2) h2
    have hnd1 : nodupKeys (applyAdded S1 (computeChanges S1 S2).added) :=
      nodupKeys_applyAdded _ S1 h1
    have e1 := lookupT_applyAdded_find (computeChanges S1 S2).added S1 k hAnames hAdist
    rw [added_find S1 S2 k h2 hc2] at e1
    have e2 := lookupT_applyRemoved_full (computeChanges S1 S2).removed _ k hnd1
    have e3 := lookupT_applyUpdated_find (computeChanges S1 S2).updated
      (applyRemoved (applyAdded S1 (computeChanges S1 S2).added)
        (computeChanges S1 S2).removed) k hUdist
    rw [updated_find S1 S2 k h2 hc2] at e3
    rw [e3, e2, e1]
    cases hA : lookupT S1 k with
    | none =>
      cases hB : lookupT S2 k with
      | none =>
        have hnrem : k ∉ (computeChanges S1 S2).removed := by
          intro hmem
          obtain ⟨hs, _⟩ := (mem_removed_iff S1 S2 k).1 hmem
          rw [hA] at hs
          cases hs
        simp [hnrem, trackedO]
      | some a =>
        have hnrem : k ∉ (computeChanges S1 S2).removed := by
          intro hmem
          obtain ⟨_, h0⟩ := (mem_removed_iff S1 S2 k).1 hmem
          rw [hB] at h0
          cases h0
        simp [hnrem, trackedO]
    | some b =>
      cases hB : lookupT S2 k with
      | none =>
        have hkrem : k ∈ (computeChanges S1 S2).removed :=
          (mem_removed_iff S1 S2 k).2 ⟨by rw [hA]; rfl, hB⟩
        simp [hkrem, trackedO]
      | some a =>
        have hnrem : k ∉ (computeChanges S1 S2).removed := by
          intro hmem
          obtain ⟨_, h0⟩ := (mem_removed_iff S1 S2 k).1 hmem
          rw [hB] at h0
          cases h0
        have hbmem := mem_of_lookupT S1 k b hA
        have hamem := mem_of_lookupT S2 k a hB
        have hbname : b.name = some k := (hc1 (k, b) hbmem).1
        have haname : a.name = some k := (hc2 (k, a) hamem).1
        obtain ⟨_, _, havs, hams⟩ := hc2 (k, a) hamem
        obtain ⟨av, hav⟩ := Option.isSome_iff_exists.1 havs
        obtain ⟨am, ham⟩ := Option.isSome_iff_exists.1 hams
        have hav2 : a.volume = some av := hav
        have ham2 : a.muted = some am := ham
        obtain ⟨tn, tv, tm⟩ := updateEntry_tracked b a
        by_cases hch : a.volume ≠ b.volume ∨ a.muted ≠ b.muted
        · simp only [diffUpdLookup_some_some, if_pos hch]
          simp [hnrem, trackedO, tn, tv, tm, haname, hav2, ham2]
        · simp only [diffUpdLookup_some_some, if_neg hch]
          push_neg at hch
          simp [hnrem, trackedO, hbname, haname, hch.1, hch.2]

/-- Old snapshot: apps `"A"` (volume 10) and `"B"`. -/
def c3S1 : Table :=
  [("A", ⟨some "A", some 10, some false, some false, none⟩),
   ("B", ⟨some "B", some 20, some false, some false, none⟩)]

/-- New snapshot: `"A"` with changed volume, `"B"` gone, `"C"` new. -/
def c3S2 : Table :=
  [("A", ⟨some "A", some 30, some false, some false, none⟩),
   ("C", ⟨some "C", some 40, some true, some false, none⟩)]

/-- Witness for C3 at the key `"A"` of two concrete snapshots. -/
theorem diff_apply_roundtrip_witness :
    nodupKeys c3S1 ∧ nodupKeys c3S2
    ∧ (¬((∃ a ∈ (computeChanges c3S1 c3S2).added, a.name = some "A")
          ∧ "A" ∈ (computeChanges c3S1 c3S2).removed)
        ∧ trackedO (lookupT (applyUpdated (applyRemoved
              (applyAdded c3S1 (computeChanges c3S1 c3S2).added)
              (computeChanges c3S1 c3S2).removed)
              (computeChanges c3S1 c3S2).updated) "A")
          = trackedO (lookupT c3S2 "A")) :=
  ⟨by unfold nodupKeys keysOf; decide, by unfold nodupKeys keysOf; decide,
    diff_apply_roundtrip c3S1 c3S2 "A"
      (by unfold nodupKeys keysOf; decide) (by unfold nodupKeys keysOf; decide)
      (by unfold coherent; decide) (by unfold coherent; decide)⟩
